import Mathlib

/-!
Verification of `src/features/algorithms-python/test_python.py`.

The Python script defines two numeric functions, `fibonacci` and
`is_prime`, a tally-based test runner `run_tests` over a fixed 8-case
table, and a `__main__` entry point that exits 0 on success and 1 on
failure.  We embed each of these shallowly and prove the specification
claims about them.  The loop bound of `is_prime` is `int(n**0.5)`, which
goes through IEEE-754 double arithmetic: the embedding models the
int-to-float rounding (including its `OverflowError` for inputs of 1025
or more bits) and the correctly rounded square root exactly, in integer
arithmetic.
-/

namespace Doodle

/-- Python: `def fibonacci(n): if n <= 0: return 0 elif n == 1: return 1
else: return fibonacci(n-1) + fibonacci(n-2)`.  The recursion is on the
integer argument; it terminates because `n.toNat` strictly decreases. -/
def fibonacci (n : ℤ) : ℤ :=
  if n ≤ 0 then 0
  else if n = 1 then 1
  else fibonacci (n - 1) + fibonacci (n - 2)
termination_by n.toNat
decreasing_by
  · omega
  · omega

/-- Structural Fibonacci on naturals, used as a computation bridge for
`fibonacci` (whose well-founded recursion does not reduce by `decide`). -/
def fibNat : ℕ → ℕ
  | 0 => 0
  | 1 => 1
  | n + 2 => fibNat (n + 1) + fibNat n

/-- Number of binary digits of `n`, computed with explicit fuel so that
it reduces inside the kernel; `bitLen` supplies fuel `n`, which always
suffices since the recursion halves its argument. -/
def bitLenAux : ℕ → ℕ → ℕ
  | 0, _ => 0
  | fuel + 1, n => if n = 0 then 0 else bitLenAux fuel (n / 2) + 1

/-- Number of binary digits of `n`: the unique `b` with `2^(b-1) ≤ n < 2^b`
for `n ≥ 1`, and `0` for `n = 0`. -/
def bitLen (n : ℕ) : ℕ := bitLenAux n n

/-- CPython's int-to-float conversion (`PyLong_AsDouble`) on a
non-negative int: integers below `2^53` are exactly representable;
larger ones are rounded to 53 significant bits, to nearest with ties to
even; if the rounded value reaches `2^1024` the conversion overflows
(Python raises `OverflowError`), modelled as `none`.  The result is the
exact integer value of the double. -/
def floatOfNat (n : ℕ) : Option ℕ :=
  if n < 2 ^ 53 then some n
  else
    let s := bitLen n - 53
    let q := n / 2 ^ s
    let r := n % 2 ^ s
    let q2 :=
      if 2 ^ s < 2 * r then q + 1
      else if 2 * r < 2 ^ s then q
      else if q % 2 = 0 then q else q + 1
    let v := q2 * 2 ^ s
    if v < 2 ^ 1024 then some v else none

/-- The value of `int(v ** 0.5)` for a double of exact non-negative
integer value `v ≥ 1`: the square root of `v` rounded to the nearest
double (53 significant bits, ties to even, as the correctly rounded
`pow(v, 0.5)` of the platform libm computes it), then truncated to an
integer.  `a` is the integer part of the scaled root and the comparison
of `4·v` against `(2a+1)²` (suitably scaled by the ulp `2^(k-52)`)
decides whether the root rounds up, down, or ties. -/
def sqrtDoubleInt (v : ℕ) : ℕ :=
  let m := Nat.sqrt v
  let k := bitLen m - 1
  if k ≤ 52 then
    let S := 2 ^ (52 - k)
    let a := Nat.sqrt (v * S ^ 2)
    let q :=
      if (2 * a + 1) ^ 2 < 4 * (v * S ^ 2) then a + 1
      else if 4 * (v * S ^ 2) < (2 * a + 1) ^ 2 then a
      else if a % 2 = 0 then a else a + 1
    q / S
  else
    let s := k - 52
    let a := m / 2 ^ s
    let q :=
      if (2 * a + 1) ^ 2 * 4 ^ s < 4 * v then a + 1
      else if 4 * v < (2 * a + 1) ^ 2 * 4 ^ s then a
      else if a % 2 = 0 then a else a + 1
    q * 2 ^ s

/-- Python: `def is_prime(n): if n < 2: return False; for i in
range(2, int(n**0.5) + 1): if n % i == 0: return False; return True`.
The loop bound `int(n**0.5)` goes through floating point: `n` is first
converted to a double (raising `OverflowError` — modelled as `none` —
for huge `n`), its square root is computed as a double, and the result
truncated.  `range(2, s + 1)` is the list `[2, ..., s]`, i.e.
`List.range' 2 (s - 1)`; the `for` loop with early `return False` is
`List.any`.  The `n < 2` test precedes the float conversion, so all
small and negative inputs return `False` without touching floats. -/
def is_prime (n : ℤ) : Option Bool :=
  if n < 2 then some false
  else
    match floatOfNat n.toNat with
    | none => none
    | some v =>
      if (List.range' 2 (sqrtDoubleInt v - 1)).any
          (fun i => n.toNat % i == 0) then some false
      else some true

/-- A Python value appearing in a test case: the table mixes `int` results
(from `fibonacci`) and `bool` results (from `is_prime`). -/
inductive Value where
  | int : ℤ → Value
  | bool : Bool → Value

/-- Python's `==` on int/bool operands: `bool` is a subclass of `int`, so
`True == 1` and `False == 0`; comparison is by numeric value. -/
def Value.toInt : Value → ℤ
  | .int i => i
  | .bool b => if b then 1 else 0

/-- Python equality `actual == expected` as used in the runner loop. -/
def valueEq (a b : Value) : Bool := a.toInt == b.toInt

/-- One entry of the `tests` list: `(actual, expected, message)`. -/
structure TestCase where
  actual : Value
  expected : Value
  message : String

/-- The mutable tally: `tests_passed` and `tests_failed`. -/
structure TestReport where
  passed : ℕ
  failed : ℕ
deriving DecidableEq

/-- The `for actual, expected, message in tests:` loop: on a match
increment `tests_passed`, otherwise increment `tests_failed`. -/
def runLoop (tests : List TestCase) (r : TestReport) : TestReport :=
  tests.foldl
    (fun r c =>
      if valueEq c.actual c.expected then ⟨r.passed + 1, r.failed⟩
      else ⟨r.passed, r.failed + 1⟩) r

/-- Python `run_tests` on a table: run the loop from a zero tally and
return the final tally together with `tests_failed == 0`. -/
def run_tests (tests : List TestCase) : TestReport × Bool :=
  let r := runLoop tests ⟨0, 0⟩
  (r, r.failed == 0)

/-- The summary block printed after the loop:
`Total: {passed+failed} tests`, `Passed: {passed}`, `Failed: {failed}`. -/
def summary (r : TestReport) : List String :=
  ["Total: " ++ toString (r.passed + r.failed) ++ " tests",
   "Passed: " ++ toString r.passed,
   "Failed: " ++ toString r.failed]

/-- The fixed, hard-coded 8-case table from the source.  Python stores
the boolean each `is_prime` call returned; on these four inputs the call
returns without error (proved in `ip2`, `ip17`, `ip4`, `ip1`), and
`Option.getD false` extracts that boolean — the default never fires. -/
def fixedTests : List TestCase :=
  [⟨.int (fibonacci 0), .int 0, "fibonacci(0) should be 0"⟩,
   ⟨.int (fibonacci 1), .int 1, "fibonacci(1) should be 1"⟩,
   ⟨.int (fibonacci 5), .int 5, "fibonacci(5) should be 5"⟩,
   ⟨.int (fibonacci 7), .int 13, "fibonacci(7) should be 13"⟩,
   ⟨.bool ((is_prime 2).getD false), .bool true, "is_prime(2) should be True"⟩,
   ⟨.bool ((is_prime 17).getD false), .bool true, "is_prime(17) should be True"⟩,
   ⟨.bool ((is_prime 4).getD false), .bool false, "is_prime(4) should be False"⟩,
   ⟨.bool ((is_prime 1).getD false), .bool false, "is_prime(1) should be False"⟩]

/-- Python `sys.exit(0 if success else 1)` in the `__main__` block. -/
def sysExit (success : Bool) : ℕ := if success then 0 else 1

/-- The whole `__main__` block: run the fixed table and exit accordingly. -/
def pythonMain : ℕ := sysExit (run_tests fixedTests).2

/-- Reference Fibonacci sequence as worded in the spec:
`fib(0)=0, fib(1)=1, fib(k)=fib(k-1)+fib(k-2) for k ≥ 2`. -/
def refFib : ℕ → ℕ
  | 0 => 0
  | 1 => 1
  | k + 2 => refFib (k + 1) + refFib k

/-- `fibonacci` with explicit recursion fuel: `none` means the recursion
depth budget was exhausted.  Used to show the recursion depth of
`fibonacci` is bounded by `n.toNat + 1`. -/
def fibFuel : ℕ → ℤ → Option ℤ
  | 0, _ => none
  | fuel + 1, n =>
    if n ≤ 0 then some 0
    else if n = 1 then some 1
    else
      match fibFuel fuel (n - 1), fibFuel fuel (n - 2) with
      | some a, some b => some (a + b)
      | _, _ => none

/-! ### Helper lemmas -/

/-- Unfolding `fibonacci` at a non-positive argument. -/
lemma fibonacci_nonpos {n : ℤ} (h : n ≤ 0) : fibonacci n = 0 := by
  rw [fibonacci]
  simp [h]

/-- The integer recursion of `fibonacci` agrees with the structural
reference sequence on every natural-number index. -/
lemma fib_val : ∀ n : ℕ, fibonacci (n : ℤ) = (refFib n : ℤ) := by
  intro n
  induction n using Nat.strong_induction_on with
  | _ n ih =>
    match n with
    | 0 => simpa using fibonacci_nonpos (by norm_num)
    | 1 =>
      rw [fibonacci]
      norm_num [refFib]
    | k + 2 =>
      rw [fibonacci]
      have h0 : ¬ ((k + 2 : ℕ) : ℤ) ≤ 0 := by push_cast; omega
      have h1 : ((k + 2 : ℕ) : ℤ) ≠ 1 := by push_cast; omega
      have e1 : ((k + 2 : ℕ) : ℤ) - 1 = ((k + 1 : ℕ) : ℤ) := by push_cast; ring
      have e2 : ((k + 2 : ℕ) : ℤ) - 2 = ((k : ℕ) : ℤ) := by push_cast; ring
      rw [if_neg h0, if_neg h1, e1, e2, ih (k + 1) (by omega), ih k (by omega)]
      have : refFib (k + 2) = refFib (k + 1) + refFib k := rfl
      rw [this]
      push_cast
      ring

lemma fib0 : fibonacci 0 = 0 := by simpa using fib_val 0

lemma fib1 : fibonacci 1 = 1 := by simpa using fib_val 1

lemma fib5 : fibonacci 5 = 5 := by
  have h := fib_val 5
  norm_num at h
  simpa [refFib] using h

lemma fib7 : fibonacci 7 = 13 := by
  have h := fib_val 7
  norm_num at h
  simpa [refFib] using h

lemma fib10 : fibonacci 10 = 55 := by
  have h := fib_val 10
  norm_num at h
  simpa [refFib] using h

/-- `bitLenAux` with enough fuel computes the number of binary digits:
`n < 2^b` and `2^b ≤ 2n` for `n ≥ 1`. -/
lemma bitLenAux_spec : ∀ (fuel n : ℕ), n ≤ fuel → 1 ≤ n →
    n < 2 ^ bitLenAux fuel n ∧ 2 ^ bitLenAux fuel n ≤ 2 * n := by
  intro fuel
  induction fuel with
  | zero => intro n h h1; omega
  | succ f ih =>
    intro n hle h1
    have hunfold : bitLenAux (f + 1) n = if n = 0 then 0 else bitLenAux f (n / 2) + 1 := rfl
    rw [hunfold, if_neg (by omega)]
    by_cases hone : n = 1
    · subst hone
      have hz : bitLenAux f (1 / 2) = 0 := by
        cases f <;> rfl
      rw [hz]
      norm_num
    · have h12 : 1 ≤ n / 2 := by omega
      have hf2 : n / 2 ≤ f := by omega
      obtain ⟨ha, hb⟩ := ih (n / 2) hf2 h12
      rw [pow_succ]
      omega

/-- The characterizing bounds of `bitLen`. -/
lemma bitLen_spec (n : ℕ) (h : 1 ≤ n) : n < 2 ^ bitLen n ∧ 2 ^ bitLen n ≤ 2 * n :=
  bitLenAux_spec n n le_rfl h

/-- Integers below `2^53` convert to float exactly. -/
lemma floatOfNat_small {n : ℕ} (h : n < 2 ^ 53) : floatOfNat n = some n := by
  rw [floatOfNat, if_pos h]

/-- Integers of 1025 or more bits overflow the float conversion: the
rounded value is at least `2^1024`, Python's `OverflowError`. -/
lemma floatOfNat_overflow {n : ℕ} (h : 2 ^ 1024 ≤ n) : floatOfNat n = none := by
  have h53 : ¬ n < 2 ^ 53 := by
    have : (2:ℕ) ^ 53 ≤ 2 ^ 1024 := Nat.pow_le_pow_right (by norm_num) (by norm_num)
    omega
  obtain ⟨hlt, hle2⟩ := bitLen_spec n (by omega)
  have hb1025 : 1025 ≤ bitLen n := by
    by_contra hc
    push_neg at hc
    have : (2:ℕ) ^ bitLen n ≤ 2 ^ 1024 := Nat.pow_le_pow_right (by norm_num) (by omega)
    omega
  have hpow : (2:ℕ) ^ bitLen n = 2 * 2 ^ (bitLen n - 1) := by
    rw [← pow_succ']
    congr 1
    omega
  have hsplit : (2:ℕ) ^ (bitLen n - 1) = 2 ^ 52 * 2 ^ (bitLen n - 53) := by
    rw [← pow_add]
    congr 1
    omega
  have hqlow : 2 ^ 52 ≤ n / 2 ^ (bitLen n - 53) := by
    rw [Nat.le_div_iff_mul_le (by positivity)]
    omega
  have hble : (2:ℕ) ^ 1024 ≤ 2 ^ (bitLen n - 1) := Nat.pow_le_pow_right (by norm_num) (by omega)
  have hbig : ∀ q2 : ℕ, n / 2 ^ (bitLen n - 53) ≤ q2 →
      2 ^ 1024 ≤ q2 * 2 ^ (bitLen n - 53) := by
    intro q2 hq2
    calc (2:ℕ) ^ 1024 ≤ 2 ^ (bitLen n - 1) := hble
    _ = 2 ^ 52 * 2 ^ (bitLen n - 53) := hsplit
    _ ≤ q2 * 2 ^ (bitLen n - 53) := Nat.mul_le_mul_right _ (le_trans hqlow hq2)
  have hfinal : ∀ q2 : ℕ, n / 2 ^ (bitLen n - 53) ≤ q2 →
      (if q2 * 2 ^ (bitLen n - 53) < 2 ^ 1024 then
        some (q2 * 2 ^ (bitLen n - 53)) else none) = (none : Option ℕ) := by
    intro q2 hq2
    rw [if_neg]
    have := hbig q2 hq2
    omega
  simp only [floatOfNat, if_neg h53]
  apply hfinal
  split_ifs <;> omega

/-- Integers below `2^1023` never overflow the float conversion. -/
lemma floatOfNat_no_overflow {n : ℕ} (h : n < 2 ^ 1023) : ∃ v, floatOfNat n = some v := by
  by_cases h53 : n < 2 ^ 53
  · exact ⟨n, floatOfNat_small h53⟩
  · obtain ⟨hlt, hle2⟩ := bitLen_spec n (by omega)
    have hb1023 : bitLen n ≤ 1023 := by
      by_contra hc
      push_neg at hc
      have hmono : (2:ℕ) ^ 1024 ≤ 2 ^ bitLen n := Nat.pow_le_pow_right (by norm_num) (by omega)
      have hnum : (2:ℕ) ^ 1024 = 2 * 2 ^ 1023 := by rw [← pow_succ']
      omega
    have hq : n / 2 ^ (bitLen n - 53) * 2 ^ (bitLen n - 53) ≤ n := Nat.div_mul_le_self n _
    have h2s : (2:ℕ) ^ (bitLen n - 53) ≤ 2 ^ 970 := by
      apply Nat.pow_le_pow_right (by norm_num)
      omega
    have hnum2 : (2:ℕ) ^ 1023 + 2 ^ 970 < 2 ^ 1024 := by norm_num
    have hsmall : ∀ q2 : ℕ, q2 ≤ n / 2 ^ (bitLen n - 53) + 1 →
        q2 * 2 ^ (bitLen n - 53) < 2 ^ 1024 := by
      intro q2 hq2
      have hmul : q2 * 2 ^ (bitLen n - 53) ≤
          n / 2 ^ (bitLen n - 53) * 2 ^ (bitLen n - 53) + 2 ^ (bitLen n - 53) := by
        calc q2 * 2 ^ (bitLen n - 53)
            ≤ (n / 2 ^ (bitLen n - 53) + 1) * 2 ^ (bitLen n - 53) :=
              Nat.mul_le_mul_right _ hq2
        _ = n / 2 ^ (bitLen n - 53) * 2 ^ (bitLen n - 53) + 2 ^ (bitLen n - 53) := by ring
      omega
    have hfinal : ∀ q2 : ℕ, q2 ≤ n / 2 ^ (bitLen n - 53) + 1 →
        ∃ v, (if q2 * 2 ^ (bitLen n - 53) < 2 ^ 1024 then
          some (q2 * 2 ^ (bitLen n - 53)) else none) = some v := by
      intro q2 hq2
      exact ⟨_, if_pos (hsmall q2 hq2)⟩
    simp only [floatOfNat, if_neg h53]
    apply hfinal
    split_ifs <;> omega

/-- For exactly representable `v < 2^52`, truncating the correctly
rounded double square root recovers the exact integer square root: the
rounding error, below half an ulp of `√v < 2^26`, can never carry the
root across an integer boundary. -/
lemma sqrtDoubleInt_small {v : ℕ} (h1 : 1 ≤ v) (h : v < 2 ^ 52) :
    sqrtDoubleInt v = Nat.sqrt v := by
  simp only [sqrtDoubleInt]
  set m := Nat.sqrt v with hm
  have hm1 : 1 ≤ m := Nat.sqrt_pos.mpr h1
  have hmlt : m < 2 ^ 26 := by
    by_contra hc
    push_neg at hc
    have hmm : (2:ℕ) ^ 26 * 2 ^ 26 ≤ m * m := Nat.mul_le_mul hc hc
    have hms : m * m ≤ v := Nat.sqrt_le v
    have hnum : (2:ℕ) ^ 26 * 2 ^ 26 = 2 ^ 52 := by norm_num
    omega
  obtain ⟨hblt, hble⟩ := bitLen_spec m hm1
  have hbl : bitLen m ≤ 26 := by
    by_contra hc
    push_neg at hc
    have hmono : (2:ℕ) ^ 27 ≤ 2 ^ bitLen m := Nat.pow_le_pow_right (by norm_num) (by omega)
    have hnum : (2:ℕ) ^ 27 = 2 * 2 ^ 26 := by norm_num
    omega
  rw [if_pos (show bitLen m - 1 ≤ 52 by omega)]
  set S := 2 ^ (52 - (bitLen m - 1)) with hS
  have hS27 : (2:ℕ) ^ 27 ≤ S := Nat.pow_le_pow_right (by norm_num) (by omega)
  have hmS : m + 1 ≤ S := by
    have h26 : (2:ℕ) ^ 26 < 2 ^ 27 := by norm_num
    omega
  set a := Nat.sqrt (v * S ^ 2) with ha
  have hSpos : 0 < S := by positivity
  have haLow : m * S ≤ a := by
    apply Nat.le_sqrt.mpr
    calc m * S * (m * S) = m * m * S ^ 2 := by ring
    _ ≤ v * S ^ 2 := Nat.mul_le_mul_right _ (Nat.sqrt_le v)
  have haHigh : a < (m + 1) * S := by
    apply Nat.sqrt_lt.mpr
    calc v * S ^ 2 < (m + 1) * (m + 1) * S ^ 2 :=
          (Nat.mul_lt_mul_right (by positivity)).mpr (Nat.lt_succ_sqrt v)
    _ = (m + 1) * S * ((m + 1) * S) := by ring
  have hup : ∀ hcond : (2 * a + 1) ^ 2 ≤ 4 * (v * S ^ 2), a + 1 < (m + 1) * S := by
    intro hcond
    rcases Nat.lt_or_ge (a + 1) ((m + 1) * S) with hlt | hge
    · exact hlt
    · exfalso
      have heq : a + 1 = (m + 1) * S := by omega
      have hvlt : v + 1 ≤ (m + 1) * (m + 1) := Nat.lt_succ_sqrt v
      have hY : (2 * a + 1) ^ 2 + 4 * (a + 1) = 4 * ((a + 1) * (a + 1)) + 1 := by ring
      have hv4 : 4 * (v * S ^ 2) + 4 * (S * S) ≤ 4 * ((a + 1) * (a + 1)) := by
        have hsq : (a + 1) * (a + 1) = (m + 1) * (m + 1) * (S * S) := by rw [heq]; ring
        have hmul : (v + 1) * (S * S) ≤ (m + 1) * (m + 1) * (S * S) :=
          Nat.mul_le_mul_right _ hvlt
        calc 4 * (v * S ^ 2) + 4 * (S * S) = 4 * ((v + 1) * (S * S)) := by ring
        _ ≤ 4 * ((m + 1) * (m + 1) * (S * S)) := Nat.mul_le_mul_left 4 hmul
        _ = 4 * ((a + 1) * (a + 1)) := by rw [hsq]
      have hSY : 4 * (a + 1) ≤ 4 * (S * S) := by
        rw [heq]
        exact Nat.mul_le_mul_left 4 (Nat.mul_le_mul_right S hmS)
      obtain ⟨A2, hA2⟩ : ∃ t, (2 * a + 1) ^ 2 = t := ⟨_, rfl⟩
      rw [hA2] at hY hcond
      obtain ⟨B2, hB2⟩ : ∃ t, 4 * ((a + 1) * (a + 1)) = t := ⟨_, rfl⟩
      rw [hB2] at hY hv4
      obtain ⟨VS, hVS⟩ : ∃ t, 4 * (v * S ^ 2) = t := ⟨_, rfl⟩
      rw [hVS] at hcond hv4
      obtain ⟨SS, hSS⟩ : ∃ t, 4 * (S * S) = t := ⟨_, rfl⟩
      rw [hSS] at hv4 hSY
      clear hA2 hB2 hVS hSS
      omega
  have hdiv : ∀ q : ℕ, m * S ≤ q → q < (m + 1) * S → q / S = m := by
    intro q hlo hhi
    exact Nat.div_eq_of_lt_le hlo hhi
  split_ifs with hc1 hc2 hc3
  · exact hdiv _ (by omega) (hup (by omega))
  · exact hdiv _ haLow haHigh
  · exact hdiv _ haLow haHigh
  · exact hdiv _ (by omega) (hup (by omega))

/-- On exactly representable inputs the whole float excursion of
`is_prime` computes the loop bound `⌊√n⌋` exactly. -/
lemma is_prime_eval_small {n : ℤ} (h2 : 2 ≤ n) (hsmall : n < 2 ^ 52) :
    is_prime n = (if (List.range' 2 (Nat.sqrt n.toNat - 1)).any
        (fun i => n.toNat % i == 0) then some false else some true) := by
  have hnn : n.toNat < 2 ^ 52 := by omega
  have hnn53 : n.toNat < 2 ^ 53 := by
    have : (2:ℕ) ^ 52 ≤ 2 ^ 53 := Nat.pow_le_pow_right (by norm_num) (by norm_num)
    omega
  have h1 : 1 ≤ n.toNat := by omega
  rw [is_prime, if_neg (by omega), floatOfNat_small hnn53]
  show (if (List.range' 2 (sqrtDoubleInt n.toNat - 1)).any
      (fun i => n.toNat % i == 0) then some false else some true) = _
  rw [sqrtDoubleInt_small h1 hnn]

/-- Python returns `False` before any float work when `n < 2`. -/
lemma is_prime_of_lt_two {n : ℤ} (h : n < 2) : is_prime n = some false := by
  rw [is_prime, if_pos h]

/-- Below `2^52` the trial-division loop decides exactly divisor-freedom
on `[2, ⌊√n⌋]`, and hence primality of `n.toNat`. -/
lemma is_prime_iff_small {n : ℤ} (hsmall : n < 2 ^ 52) :
    is_prime n = some true ↔ 2 ≤ n ∧ Nat.Prime n.toNat := by
  by_cases hlt : n < 2
  · rw [is_prime_of_lt_two hlt]
    constructor
    · intro h
      exact absurd h (by simp)
    · rintro ⟨h2, -⟩
      omega
  · push_neg at hlt
    rw [is_prime_eval_small hlt hsmall]
    have h2 : 2 ≤ n.toNat := by omega
    constructor
    · intro h
      by_cases hany :
          (List.range' 2 (Nat.sqrt n.toNat - 1)).any (fun i => n.toNat % i == 0) = true
      · rw [if_pos hany] at h
        exact absurd h (by simp)
      · refine ⟨hlt, Nat.prime_def_le_sqrt.mpr ⟨h2, fun m hm2 hms hdvd => ?_⟩⟩
        have hsq : 2 ≤ Nat.sqrt n.toNat := le_trans hm2 hms
        have hmem : m ∈ List.range' 2 (Nat.sqrt n.toNat - 1) := by
          rw [List.mem_range'_1]
          omega
        have hmod : n.toNat % m = 0 := Nat.dvd_iff_mod_eq_zero.mp hdvd
        exact hany (List.any_eq_true.mpr ⟨m, hmem, by simp [hmod]⟩)
    · rintro ⟨-, hp⟩
      have hnone :
          ¬ (List.range' 2 (Nat.sqrt n.toNat - 1)).any (fun i => n.toNat % i == 0) = true := by
        intro hany
        obtain ⟨m, hmem, hmod⟩ := List.any_eq_true.mp hany
        rw [List.mem_range'_1] at hmem
        have hdvd : m ∣ n.toNat := Nat.dvd_iff_mod_eq_zero.mpr (by simpa using hmod)
        exact (Nat.prime_def_le_sqrt.mp hp).2 m hmem.1 (by omega) hdvd
      rw [if_neg hnone]

lemma ip2 : is_prime 2 = some true :=
  (is_prime_iff_small (by norm_num)).mpr ⟨by norm_num, by decide⟩

lemma ip17 : is_prime 17 = some true :=
  (is_prime_iff_small (by norm_num)).mpr ⟨by norm_num, by decide⟩

lemma ip4 : is_prime 4 = some false := by
  rw [is_prime_eval_small (by norm_num) (by norm_num)]
  rw [show Nat.sqrt (4:ℤ).toNat = 2 from (Nat.eq_sqrt.mpr (by decide)).symm]
  decide

lemma ip9 : is_prime 9 = some false := by
  rw [is_prime_eval_small (by norm_num) (by norm_num)]
  rw [show Nat.sqrt (9:ℤ).toNat = 3 from (Nat.eq_sqrt.mpr (by decide)).symm]
  decide

lemma ip1 : is_prime 1 = some false := is_prime_of_lt_two (by norm_num)

/-- Any integer at least `2^1024` makes `is_prime` hit the float
overflow: the call raises instead of returning a boolean. -/
lemma is_prime_overflow {n : ℤ} (h : (2:ℤ) ^ 1024 ≤ n) : is_prime n = none := by
  have h2 : ¬ n < 2 := by
    have : (2:ℤ) ≤ 2 ^ 1024 := by norm_num
    omega
  have hn : 2 ^ 1024 ≤ n.toNat := by
    have hnn : (0:ℤ) ≤ n := by
      have : (0:ℤ) ≤ 2 ^ 1024 := by positivity
      omega
    have hcast : ((2 ^ 1024 : ℕ) : ℤ) ≤ (n.toNat : ℤ) := by
      rw [Int.toNat_of_nonneg hnn]
      push_cast
      omega
    exact_mod_cast hcast
  rw [is_prime, if_neg h2, floatOfNat_overflow hn]

/-- A test case passes iff Python's `actual == expected` holds. -/
def caseOk (c : TestCase) : Bool := valueEq c.actual c.expected

/-- The runner loop adds the number of passing cases to `passed` and the
number of failing cases to `failed`, never skipping a case. -/
lemma runLoop_spec : ∀ (tests : List TestCase) (r : TestReport),
    runLoop tests r =
      ⟨r.passed + tests.countP caseOk, r.failed + tests.countP (fun c => ! caseOk c)⟩ := by
  intro tests
  induction tests with
  | nil => intro r; simp [runLoop]
  | cons c cs ih =>
    intro r
    by_cases h : caseOk c = true
    · have : runLoop (c :: cs) r = runLoop cs ⟨r.passed + 1, r.failed⟩ := by
        simp only [runLoop, List.foldl_cons]
        rw [if_pos (by simpa [caseOk] using h)]
      rw [this, ih]
      simp [List.countP_cons, h]
      omega
    · have hb : caseOk c = false := by simpa using h
      have : runLoop (c :: cs) r = runLoop cs ⟨r.passed, r.failed + 1⟩ := by
        simp only [runLoop, List.foldl_cons]
        rw [if_neg (by simpa [caseOk] using h)]
      rw [this, ih]
      simp [List.countP_cons, hb]
      omega

lemma run_tests_passed (tests : List TestCase) :
    (run_tests tests).1.passed = tests.countP caseOk := by
  simp [run_tests, runLoop_spec]

lemma run_tests_failed (tests : List TestCase) :
    (run_tests tests).1.failed = tests.countP (fun c => ! caseOk c) := by
  simp [run_tests, runLoop_spec]

lemma run_tests_snd (tests : List TestCase) :
    (run_tests tests).2 = ((run_tests tests).1.failed == 0) := by
  simp [run_tests]

lemma run_tests_length (tests : List TestCase) :
    (run_tests tests).1.passed + (run_tests tests).1.failed = tests.length := by
  rw [run_tests_passed, run_tests_failed]
  have h := List.length_eq_countP_add_countP caseOk tests
  have e : (tests.countP fun c => !caseOk c) = (tests.countP fun c => decide ¬ caseOk c = true) := by
    apply List.countP_congr
    intro c _
    cases caseOk c <;> simp
  omega

/-- With more fuel than `n.toNat`, the fuelled recursion never runs out:
the recursion depth of `fibonacci` is bounded by `n.toNat + 1`. -/
lemma fibFuel_spec : ∀ (fuel : ℕ) (n : ℤ), n.toNat < fuel →
    fibFuel fuel n = some (fibonacci n) := by
  intro fuel
  induction fuel with
  | zero => intro n h; omega
  | succ fuel ih =>
    intro n h
    rw [fibFuel]
    by_cases h0 : n ≤ 0
    · rw [if_pos h0, fibonacci_nonpos h0]
    · rw [if_neg h0]
      by_cases h1 : n = 1
      · rw [if_pos h1, h1]
        rw [fibonacci]
        norm_num
      · rw [if_neg h1]
        have hn2 : 2 ≤ n := by omega
        have e1 : (n - 1).toNat < fuel := by omega
        have e2 : (n - 2).toNat < fuel := by omega
        rw [ih (n - 1) e1, ih (n - 2) e2]
        conv_rhs => rw [fibonacci, if_neg h0, if_neg h1]

/-- Every positive index of the reference sequence has a positive value. -/
lemma refFib_pos : ∀ k : ℕ, 1 ≤ refFib (k + 1) := by
  intro k
  induction k with
  | zero => simp [refFib]
  | succ k ih =>
    have h2 : refFib (k + 1 + 1) = refFib (k + 1) + refFib k := rfl
    omega

/-- The fixed table with the single expected value of the
`fibonacci(5)` case corrupted to `6`, as in the spec's mutation
scenario. -/
def corruptedTests : List TestCase :=
  [⟨.int (fibonacci 0), .int 0, "fibonacci(0) should be 0"⟩,
   ⟨.int (fibonacci 1), .int 1, "fibonacci(1) should be 1"⟩,
   ⟨.int (fibonacci 5), .int 6, "fibonacci(5) should be 5"⟩,
   ⟨.int (fibonacci 7), .int 13, "fibonacci(7) should be 13"⟩,
   ⟨.bool ((is_prime 2).getD false), .bool true, "is_prime(2) should be True"⟩,
   ⟨.bool ((is_prime 17).getD false), .bool true, "is_prime(17) should be True"⟩,
   ⟨.bool ((is_prime 4).getD false), .bool false, "is_prime(4) should be False"⟩,
   ⟨.bool ((is_prime 1).getD false), .bool false, "is_prime(1) should be False"⟩]

/-! ### Claim theorems -/

/-- C1: for every integer `n ≥ 0`, `fibonacci n` equals the `n`-th term of
the reference sequence `fib(0)=0, fib(1)=1, fib(k)=fib(k-1)+fib(k-2)`;
in particular `fibonacci 1 = 1`, `fibonacci 5 = 5`, `fibonacci 7 = 13`
and `fibonacci 10 = 55`. -/
theorem fibonacci_matches_reference :
    (∀ n : ℕ, fibonacci (n : ℤ) = (refFib n : ℤ)) ∧
      fibonacci 1 = 1 ∧ fibonacci 5 = 5 ∧ fibonacci 7 = 13 ∧ fibonacci 10 = 55 :=
  ⟨fib_val, fib1, fib5, fib7, fib10⟩

/-- C2 counterexample: the claim quantifies over every integer, but at
the composite input `2^1024` the program raises `OverflowError` while
converting `n` to float instead of returning `False` as the claim
requires: `is_prime` yields no boolean there at all. -/
theorem is_prime_correct_counterexample :
    is_prime ((2:ℤ) ^ 1024) = none ∧ ¬ Nat.Prime ((2:ℤ) ^ 1024).toNat := by
  constructor
  · exact is_prime_overflow le_rfl
  · have ht : ((2:ℤ) ^ 1024).toNat = 2 ^ 1024 := by
      have hcast : ((2:ℤ) ^ 1024) = ((2 ^ 1024 : ℕ) : ℤ) := by push_cast; ring
      rw [hcast, Int.toNat_natCast]
    rw [ht]
    intro hp
    rcases hp.eq_one_or_self_of_dvd 2 (dvd_pow_self 2 (by norm_num)) with h1 | h1
    · norm_num at h1
    · have : (2:ℕ) < 2 ^ 1024 := by norm_num
      omega

/-- C2 (amended): below `2^52` — where the float excursion of
`int(n**0.5)` provably computes the exact `⌊√n⌋` — `is_prime n` returns
`True` iff `n` is a prime number (equivalently, `n ≥ 2` with no divisor
in `[2, ⌊√n⌋]`); it returns `False` for every `n < 2` (negatives never
reach the float conversion); and `is_prime 2 = True`,
`is_prime 17 = True`, `is_prime 4 = False`, `is_prime 9 = False`.  The
unrestricted claim fails: at `n ≥ 2^1024` the float conversion raises
`OverflowError` instead of returning. -/
theorem is_prime_correct :
    (∀ n : ℤ, n < 2 ^ 52 → (is_prime n = some true ↔ 2 ≤ n ∧ Nat.Prime n.toNat)) ∧
      (∀ n : ℤ, n < 2 ^ 52 → (is_prime n = some true ↔
        2 ≤ n ∧ ∀ m : ℕ, 2 ≤ m → m ≤ Nat.sqrt n.toNat → ¬ m ∣ n.toNat)) ∧
      (∀ n : ℤ, n < 2 → is_prime n = some false) ∧
      is_prime 2 = some true ∧ is_prime 17 = some true ∧
      is_prime 4 = some false ∧ is_prime 9 = some false := by
  refine ⟨fun n h => is_prime_iff_small h, ?_, fun n h => is_prime_of_lt_two h,
    ip2, ip17, ip4, ip9⟩
  intro n hsmall
  rw [is_prime_iff_small hsmall]
  constructor
  · rintro ⟨h2, hp⟩
    exact ⟨h2, (Nat.prime_def_le_sqrt.mp hp).2⟩
  · rintro ⟨h2, hd⟩
    exact ⟨h2, Nat.prime_def_le_sqrt.mpr ⟨by omega, hd⟩⟩

/-- C2 witness: the amended equivalence applied at the concrete prime
input `17 < 2^52`. -/
theorem is_prime_correct_witness :
    ((17:ℤ) < 2 ^ 52) ∧
      (is_prime 17 = some true ↔ 2 ≤ (17:ℤ) ∧ Nat.Prime (17:ℤ).toNat) :=
  ⟨by norm_num, is_prime_correct.1 17 (by norm_num)⟩

/-- C3: `run_tests` returns `true` iff the final failed count is `0`,
and returns `false` iff some case has `actual != expected`. -/
theorem run_tests_true_iff_no_failure (tests : List TestCase) :
    ((run_tests tests).2 = true ↔ (run_tests tests).1.failed = 0) ∧
      ((run_tests tests).2 = false ↔
        ∃ c ∈ tests, valueEq c.actual c.expected = false) := by
  constructor
  · rw [run_tests_snd]
    simp
  · rw [run_tests_snd, run_tests_failed]
    simp only [beq_eq_false_iff_ne, ne_eq]
    have hpos : ¬ (List.countP (fun c => ! caseOk c) tests = 0) ↔
        0 < List.countP (fun c => ! caseOk c) tests := by omega
    rw [hpos, List.countP_pos_iff]
    constructor
    · rintro ⟨c, hc, hf⟩
      exact ⟨c, hc, by simpa [caseOk] using hf⟩
    · rintro ⟨c, hc, hf⟩
      exact ⟨c, hc, by simp [caseOk, hf]⟩

/-- C4: every case is counted (a mismatch never aborts the run):
`passed + failed` equals the number of cases, and the printed total is
exactly `passed + failed`. -/
theorem run_tests_counts_all_cases (tests : List TestCase) :
    (run_tests tests).1.passed + (run_tests tests).1.failed = tests.length ∧
      (summary (run_tests tests).1).head? =
        some ("Total: " ++
          toString ((run_tests tests).1.passed + (run_tests tests).1.failed) ++ " tests") :=
  ⟨run_tests_length tests, rfl⟩

/-- C5: on the fixed hard-coded 8-case table the run reports
`Total: 8 tests`, `Passed: 8`, `Failed: 0`, `run_tests` returns `true`,
and the process exits with status 0. -/
theorem fixed_table_all_pass :
    run_tests fixedTests = (⟨8, 0⟩, true) ∧
      summary (run_tests fixedTests).1 = ["Total: 8 tests", "Passed: 8", "Failed: 0"] ∧
      pythonMain = 0 := by
  have h : fixedTests =
      [⟨.int 0, .int 0, "fibonacci(0) should be 0"⟩,
       ⟨.int 1, .int 1, "fibonacci(1) should be 1"⟩,
       ⟨.int 5, .int 5, "fibonacci(5) should be 5"⟩,
       ⟨.int 13, .int 13, "fibonacci(7) should be 13"⟩,
       ⟨.bool true, .bool true, "is_prime(2) should be True"⟩,
       ⟨.bool true, .bool true, "is_prime(17) should be True"⟩,
       ⟨.bool false, .bool false, "is_prime(4) should be False"⟩,
       ⟨.bool false, .bool false, "is_prime(1) should be False"⟩] := by
    rw [fixedTests, fib0, fib1, fib5, fib7, ip2, ip17, ip4, ip1]
    rfl
  rw [pythonMain, h]
  refine ⟨by decide, by decide, by decide⟩

/-- C6: if the 8-case table is corrupted so that exactly one case has
`actual != expected`, the run reports `Passed: 7`, `Failed: 1`,
`run_tests` returns `false`, and the exit status is non-zero. -/
theorem single_corruption_fails (tests : List TestCase)
    (hlen : tests.length = 8)
    (hone : tests.countP (fun c => ! valueEq c.actual c.expected) = 1) :
    (run_tests tests).1.passed = 7 ∧ (run_tests tests).1.failed = 1 ∧
      (run_tests tests).2 = false ∧ sysExit (run_tests tests).2 = 1 := by
  have hone' : tests.countP (fun c => ! caseOk c) = 1 := hone
  have hfailed : (run_tests tests).1.failed = 1 := by
    rw [run_tests_failed, hone']
  have hpassed : (run_tests tests).1.passed = 7 := by
    have := run_tests_length tests
    omega
  have hsnd : (run_tests tests).2 = false := by
    rw [run_tests_snd, hfailed]
    decide
  exact ⟨hpassed, hfailed, hsnd, by rw [hsnd]; decide⟩

/-- C6 witness: the table with the `fibonacci(5)` expectation corrupted
to `6` has 8 cases, exactly one mismatch, and fails as stated. -/
theorem single_corruption_fails_witness :
    (corruptedTests.length = 8 ∧
        corruptedTests.countP (fun c => ! valueEq c.actual c.expected) = 1) ∧
      ((run_tests corruptedTests).1.passed = 7 ∧
        (run_tests corruptedTests).1.failed = 1 ∧
        (run_tests corruptedTests).2 = false ∧
        sysExit (run_tests corruptedTests).2 = 1) := by
  have h : corruptedTests =
      [⟨.int 0, .int 0, "fibonacci(0) should be 0"⟩,
       ⟨.int 1, .int 1, "fibonacci(1) should be 1"⟩,
       ⟨.int 5, .int 6, "fibonacci(5) should be 5"⟩,
       ⟨.int 13, .int 13, "fibonacci(7) should be 13"⟩,
       ⟨.bool true, .bool true, "is_prime(2) should be True"⟩,
       ⟨.bool true, .bool true, "is_prime(17) should be True"⟩,
       ⟨.bool false, .bool false, "is_prime(4) should be False"⟩,
       ⟨.bool false, .bool false, "is_prime(1) should be False"⟩] := by
    rw [corruptedTests, fib0, fib1, fib5, fib7, ip2, ip17, ip4, ip1]
    rfl
  have hlen : corruptedTests.length = 8 := by rw [h]; decide
  have hone : corruptedTests.countP (fun c => ! valueEq c.actual c.expected) = 1 := by
    rw [h]; decide
  exact ⟨⟨hlen, hone⟩, single_corruption_fails corruptedTests hlen hone⟩

/-- C7: `fibonacci n = 0` for every integer `n ≤ 0`. -/
theorem fibonacci_nonpos_zero (n : ℤ) (h : n ≤ 0) : fibonacci n = 0 :=
  fibonacci_nonpos h

/-- C7 witness: `fibonacci (-5) = 0`. -/
theorem fibonacci_nonpos_zero_witness : (-5 : ℤ) ≤ 0 ∧ fibonacci (-5) = 0 :=
  ⟨by norm_num, fibonacci_nonpos_zero (-5) (by norm_num)⟩

/-- C8 counterexample: `is_prime` is not total over all integers — at
`2^1024` the float conversion inside `n**0.5` overflows and the call
raises `OverflowError` (modelled as `none`) instead of terminating with
a boolean. -/
theorem functions_total_counterexample : is_prime ((2:ℤ) ^ 1024) = none :=
  is_prime_overflow le_rfl

/-- C8 (amended): `fibonacci` is total over all integers with bounded
recursion depth (fuel `n.toNat + 1` always suffices, so the fuelled
version never exhausts its budget), and `is_prime` terminates with a
boolean for every integer below `2^1023`; it is not total beyond, where
the float conversion raises `OverflowError`. -/
theorem functions_total (n : ℤ) :
    fibFuel (n.toNat + 1) n = some (fibonacci n) ∧
      (n < 2 ^ 1023 → ∃ b, is_prime n = some b) := by
  refine ⟨fibFuel_spec (n.toNat + 1) n (by omega), fun hsmall => ?_⟩
  by_cases hlt : n < 2
  · exact ⟨false, is_prime_of_lt_two hlt⟩
  · push_neg at hlt
    have hn : n.toNat < 2 ^ 1023 := by
      have h1 : (n.toNat : ℤ) < (2:ℤ) ^ 1023 := by
        rw [Int.toNat_of_nonneg (by omega)]
        exact hsmall
      exact_mod_cast h1
    obtain ⟨v, hv⟩ := floatOfNat_no_overflow hn
    rw [is_prime, if_neg (by omega), hv]
    show ∃ b, (if (List.range' 2 (sqrtDoubleInt v - 1)).any
        (fun i => n.toNat % i == 0) then some false else some true) = some b
    by_cases hany : (List.range' 2 (sqrtDoubleInt v - 1)).any
        (fun i => n.toNat % i == 0) = true
    · exact ⟨false, by rw [if_pos hany]⟩
    · exact ⟨true, by rw [if_neg hany]⟩

/-- C8 witness: the amended totality statement applied at the concrete
input `100 < 2^1023`. -/
theorem functions_total_witness :
    ((100:ℤ) < 2 ^ 1023) ∧ ∃ b, is_prime (100:ℤ) = some b :=
  ⟨by norm_num, (functions_total 100).2 (by norm_num)⟩

/-- C9: the entry point exits with status 0 exactly when `run_tests`
returns `true` and with status 1 exactly when it returns `false`;
`pythonMain` is precisely this exit status on the fixed table. -/
theorem exit_status_reflects_result (tests : List TestCase) :
    (sysExit (run_tests tests).2 = 0 ↔ (run_tests tests).2 = true) ∧
      (sysExit (run_tests tests).2 = 1 ↔ (run_tests tests).2 = false) ∧
      pythonMain = sysExit (run_tests fixedTests).2 := by
  refine ⟨?_, ?_, rfl⟩ <;> cases h : (run_tests tests).2 <;> simp [sysExit, h]

/-- C10: `fibonacci n = 0` iff `n ≤ 0`; equivalently every positive
index has `fibonacci n ≥ 1`. -/
theorem fibonacci_zero_iff_nonpos (n : ℤ) :
    (fibonacci n = 0 ↔ n ≤ 0) ∧ (1 ≤ n → 1 ≤ fibonacci n) := by
  have hpos : 1 ≤ n → 1 ≤ fibonacci n := by
    intro h1
    have hn : n = ((n.toNat : ℕ) : ℤ) := (Int.toNat_of_nonneg (by omega)).symm
    have hk : n.toNat = (n.toNat - 1) + 1 := by omega
    rw [hn, fib_val, hk]
    have := refFib_pos (n.toNat - 1)
    omega
  constructor
  · constructor
    · intro h0
      by_contra hgt
      have := hpos (by omega)
      omega
    · exact fibonacci_nonpos
  · exact hpos

/-- C10 witness: `fibonacci 3 ≥ 1` at the concrete positive input `3`. -/
theorem fibonacci_zero_iff_nonpos_witness : (1 : ℤ) ≤ 3 ∧ 1 ≤ fibonacci 3 :=
  ⟨by norm_num, (fibonacci_zero_iff_nonpos 3).2 (by norm_num)⟩

end Doodle
